import Mathlib

/-!
Verification of the mamba-game simulation core (src/game.js).

The JavaScript source is shallowly embedded: JS numbers holding board
coordinates and tick counters become `Int` (JS integer arithmetic on these
values never leaves the integers), the non-integer tick budget `blockTicks`
becomes `Rat`, JS arrays become `List`, JS objects become structures, and
`Math.random()`-driven choices are parameterised by an oracle `Nat` supplied
with each tick action.  Reading an array out of range yields `undefined` in
JS, which is falsy everywhere the game inspects it, so grid reads out of
range are modelled as `false`.
-/

namespace Mamba

/-- JS array indexing `l[i]` for a possibly negative index, with a default
for the out-of-range (`undefined`) case. -/
def listGetZ (l : List α) (i : ℤ) (d : α) : α :=
  if 0 ≤ i then (l.get? i.toNat).getD d else d

/-- JS array indexing returning `none` for out-of-range, used where the
source distinguishes `undefined`. -/
def getZ? (l : List α) (i : ℤ) : Option α :=
  if 0 ≤ i then l.get? i.toNat else none

/-- JS `Array.prototype.map((element, index) => ...)` with an explicit start
index so that lemmas can be proved by structural induction. -/
def mapIdxFrom (f : Nat → α → β) (i : Nat) : List α → List β
  | [] => []
  | a :: l => f i a :: mapIdxFrom f (i + 1) l

/-- JS `Array.prototype.map((element, index) => ...)`. -/
def jsMapIdx (f : Nat → α → β) (l : List α) : List β :=
  mapIdxFrom f 0 l

/-- JS `Math.round` on the exact rational value: round half toward
positive infinity. -/
def jsRound (q : ℚ) : ℤ :=
  ⌊q + 1 / 2⌋

/-- A board point, the `{ x, y }` objects of the source. -/
structure Point where
  x : ℤ
  y : ℤ
deriving DecidableEq, Repr

theorem Point.ext_xy {p q : Point} (hx : p.x = q.x) (hy : p.y = q.y) : p = q := by
  cases p; cases q; simp_all

/-- The four runner headings. -/
inductive Direction where
  | up
  | down
  | left
  | right
deriving DecidableEq, Repr

def BOARD_COLS : ℤ := 40
def BOARD_ROWS : ℤ := 20
def tickDuration : ℚ := 64
def blockDurationInSeconds : ℚ := 30

/-- `blockTicks = blockDurationInSeconds * 1000 / tickDuration = 468.75`. -/
def blockTicks : ℚ := blockDurationInSeconds * 1000 / tickDuration

/-- A level descriptor. -/
structure LevelData where
  snakeLength : Nat
  requiredFillPercentage : ℤ
deriving DecidableEq, Repr

def levels : List LevelData :=
  [⟨6, 50⟩, ⟨8, 75⟩, ⟨10, 85⟩, ⟨10, 90⟩, ⟨10, 95⟩]

/-- `isBorder(x, y)` from the source. -/
def isBorder (x y : ℤ) : Bool :=
  x == 0 || y == 0 || x == BOARD_COLS - 1 || y == BOARD_ROWS - 1

/-- `isWall(walls, x, y) = walls[y][x]`; out-of-range reads are `undefined`,
which is falsy wherever the game inspects the result. -/
def isWall (walls : List (List Bool)) (x y : ℤ) : Bool :=
  listGetZ (listGetZ walls y []) x false

/-- `fillWall(walls, x, y)`: set the cell at `(x, y)` to filled. -/
def fillWall (walls : List (List Bool)) (x y : ℤ) : List (List Bool) :=
  jsMapIdx (fun rowIndex row =>
    if y ≠ (rowIndex : ℤ) then row
    else jsMapIdx (fun colIndex fill => if x = (colIndex : ℤ) then true else fill) row) walls

/-- `hasSamePosition(a, b)`. -/
def hasSamePosition (a b : Point) : Bool :=
  a.x == b.x && a.y == b.y

/-- `hasCoordinates(dot, x, y)`. -/
def hasCoordinates (dot : Point) (x y : ℤ) : Bool :=
  dot.x == x && dot.y == y

/-- `fillNonSnakeArea(walls, snakeArea)`: every cell not in `snakeArea`
becomes filled, cells in `snakeArea` keep their value. -/
def fillNonSnakeArea (walls : List (List Bool)) (snakeArea : List Point) : List (List Bool) :=
  jsMapIdx (fun rowIndex row =>
    jsMapIdx (fun colIndex fill =>
      if snakeArea.any (fun dot => hasCoordinates dot (colIndex : ℤ) (rowIndex : ℤ))
      then fill else true) row) walls

/-- The four neighbour candidates generated by `getSnakeArea`, in source
order: `[{x-1,y}, {x+1,y}, {x,y+1}, {x,y-1}]`. -/
def nbrs (x y : ℤ) : List Point :=
  [⟨x - 1, y⟩, ⟨x + 1, y⟩, ⟨x, y + 1⟩, ⟨x, y - 1⟩]

/-- The bounds filter of `getSnakeArea`: `!(x < 0 || x > BOARD_COLS) &&
!(y < 0 || y > BOARD_ROWS)`.  The source deliberately allows `x = BOARD_COLS`
and `y = BOARD_ROWS`, one past the last cell. -/
def inBounds (p : Point) : Bool :=
  !(p.x < 0 || p.x > BOARD_COLS) && !(p.y < 0 || p.y > BOARD_ROWS)

/-- All points the bounds filter can accept. -/
def boundsUniv : Finset Point :=
  (Finset.Icc (0 : ℤ) BOARD_COLS ×ˢ Finset.Icc (0 : ℤ) BOARD_ROWS).image
    (fun q => ⟨q.1, q.2⟩)

/-- The `visited` array of `fillHoles`/`getSnakeArea`.  The source copies the
walls and then mutates cells to `true` in place; we keep the immutable walls
plus an overlay of the cells marked during the traversal. -/
structure Visited where
  walls : List (List Bool)
  marked : Finset Point

/-- Reading `visited[y][x]` (out-of-range reads are falsy, see module
comment). -/
def isVisited (v : Visited) (p : Point) : Bool :=
  isWall v.walls p.x p.y || decide (p ∈ v.marked)

/-- The in-place mutation `visited[y][x] = true`. -/
def markVisited (v : Visited) (p : Point) : Visited :=
  { v with marked := insert p v.marked }

theorem mem_boundsUniv_of_inBounds {p : Point} (h : inBounds p = true) : p ∈ boundsUniv := by
  simp only [inBounds, Bool.and_eq_true, Bool.not_eq_true', Bool.or_eq_false_iff,
    decide_eq_false_iff_not, not_lt] at h
  simp only [boundsUniv, Finset.mem_image, Finset.mem_product, Finset.mem_Icc, Prod.exists]
  exact ⟨p.x, p.y, ⟨⟨h.1.1, h.1.2⟩, ⟨h.2.1, h.2.2⟩⟩, rfl⟩

theorem not_mem_marked_of_not_visited {v : Visited} {p : Point}
    (h : isVisited v p = false) : p ∉ v.marked := by
  simp only [isVisited, Bool.or_eq_false_iff, decide_eq_false_iff_not] at h
  exact h.2

/-- The candidate filter of `getSnakeArea` against a `visited` state: the
four neighbours of `(x, y)` that are in bounds and not yet visited. -/
def pcandsOf (v : Visited) (x y : ℤ) : List Point :=
  (nbrs x y).filter (fun q => inBounds q && !isVisited v q)

theorem pcandsOf_ok (v : Visited) (x y : ℤ) :
    ∀ q ∈ pcandsOf v x y, q ∈ boundsUniv ∧ q ∉ v.marked := by
  intro q hq
  have hq' := List.of_mem_filter hq
  simp only [Bool.and_eq_true, Bool.not_eq_true'] at hq'
  exact ⟨mem_boundsUniv_of_inBounds hq'.1, not_mem_marked_of_not_visited hq'.2⟩

theorem consTail_ok {M0 : Finset Point} {p : Point} {rest : List Point}
    (hc : ∀ q ∈ p :: rest, q ∈ boundsUniv ∧ q ∉ M0) :
    ∀ q ∈ rest, q ∈ boundsUniv ∧ q ∉ M0 :=
  fun q hq => hc q (List.mem_cons_of_mem _ hq)

theorem markGrow_ok {M0 : Finset Point} {v : Visited} {p : Point} {v2 : Visited}
    (hm : M0 ⊆ v.marked) (hg : (markVisited v p).marked ⊆ v2.marked) :
    M0 ⊆ v2.marked :=
  hm.trans ((Finset.subset_insert _ _).trans hg)

theorem saGo_dec1 (M0 : Finset Point) (v : Visited) (p : Point)
    (hp : p ∈ boundsUniv ∧ p ∉ M0) (hm : M0 ⊆ v.marked) :
    (boundsUniv \ (markVisited v p).marked).card < (boundsUniv \ M0).card := by
  have h1 : boundsUniv \ (markVisited v p).marked ⊆ boundsUniv \ insert p M0 := by
    apply Finset.sdiff_subset_sdiff (Finset.Subset.refl _)
    exact Finset.insert_subset_insert _ hm
  have h2 : boundsUniv \ insert p M0 ⊂ boundsUniv \ M0 := by
    apply Finset.ssubset_iff_of_subset
      (Finset.sdiff_subset_sdiff (Finset.Subset.refl _) (Finset.subset_insert _ _)) |>.2
    exact ⟨p, Finset.mem_sdiff.2 ⟨hp.1, hp.2⟩, by simp⟩
  exact lt_of_le_of_lt (Finset.card_le_card h1) (Finset.card_lt_card h2)

/-- The recursive body of `getSnakeArea`.  The source filters the four
neighbour candidates against the current `visited` array and then, for each
survivor in order, marks it visited and recurses from it
(`flatMap(p => { visited[p] = true; return [p, ...getSnakeArea(...)] })`).
`saGo` processes one such pre-filtered candidate list; `M0` is a snapshot of
the marked overlay from the moment the list was filtered, which (together
with the proofs `hc` and `hm`) drives termination: every candidate is
in bounds and unmarked in the snapshot, so marking it strictly shrinks the
unmarked part of `boundsUniv`. -/
def saGo (M0 : Finset Point) (v : Visited) (cands : List Point)
    (hc : ∀ p ∈ cands, p ∈ boundsUniv ∧ p ∉ M0)
    (hm : M0 ⊆ v.marked) :
    List Point × { v' : Visited // v.marked ⊆ v'.marked ∧ v'.walls = v.walls } :=
  match cands with
  | [] => ([], ⟨v, Finset.Subset.refl _, rfl⟩)
  | p :: rest =>
      let r1 := saGo (markVisited v p).marked (markVisited v p)
        (pcandsOf (markVisited v p) p.x p.y)
        (pcandsOf_ok (markVisited v p) p.x p.y) (Finset.Subset.refl _)
      let r2 := saGo M0 r1.2.1 rest (consTail_ok hc) (markGrow_ok hm r1.2.2.1)
      (p :: (r1.1 ++ r2.1),
        ⟨r2.2.1,
         (Finset.subset_insert _ _).trans (r1.2.2.1.trans r2.2.2.1),
         r2.2.2.2.trans r1.2.2.2⟩)
termination_by ((boundsUniv \ M0).card, cands.length)
decreasing_by
  · exact Prod.Lex.left _ _ (saGo_dec1 M0 v p (hc p (List.mem_cons_self p rest)) hm)
  · apply Prod.Lex.right
    simp only [*, List.length_cons]
    omega

/-- `getSnakeArea(visited, walls, x, y)` at its top-level entry: the four
neighbours of `(x, y)` are filtered against `visited` and traversed. -/
def getSnakeArea (v : Visited) (x y : ℤ) :
    List Point × { v' : Visited // v.marked ⊆ v'.marked ∧ v'.walls = v.walls } :=
  saGo v.marked v (pcandsOf v x y) (pcandsOf_ok v x y) (Finset.Subset.refl _)

/-- `fillHoles(walls, snakeHead)`: flood from the hunter head over the open
cells (the copied walls act as the initially-visited set, so the overlay
starts empty) and fill every cell the flood did not reach. -/
def fillHoles (walls : List (List Bool)) (snakeHead : Point) : List (List Bool) :=
  let snakeArea := (getSnakeArea ⟨walls, ∅⟩ snakeHead.x snakeHead.y).1
  fillNonSnakeArea walls snakeArea

/-- `getFillPercentage(walls)`: `Math.round((filled / total) * 100)` where
`filled` counts the filled cells starting from `-borders` and `total` is the
cell count minus the border count. -/
def getFillPercentage (walls : List (List Bool)) : ℤ :=
  let borders : ℤ := BOARD_COLS * 2 + BOARD_ROWS * 2 - 4
  let filled : ℤ := walls.foldl
    (fun acc rows => acc + rows.foldl (fun acc fill => if fill then acc + 1 else acc) 0)
    (-1 * borders)
  let total : ℤ := BOARD_COLS * BOARD_ROWS - borders
  jsRound ((filled : ℚ) / (total : ℚ) * 100)

/-- `consumePressedDirection(pressedDirections)`: returns the (possibly
popped) queue and the front entry (`undefined`, i.e. `none`, on an empty
queue). -/
def consumePressedDirection (pressedDirections : List Direction) :
    List Direction × Option Direction :=
  (if pressedDirections.length > 1 then pressedDirections.tail else pressedDirections,
   pressedDirections.head?)

/-- The hunter state. -/
structure Snake where
  direction : Direction
  points : List Point
deriving DecidableEq, Repr

/-- The runner's trail state. -/
structure Thread where
  draw : Bool
  points : List Point
deriving DecidableEq, Repr

/-- The whole game state. -/
structure GameState where
  level : Nat
  state : String
  tick : ℤ
  spider : Point
  thread : Thread
  pressedDirections : List Direction
  snake : Snake
  walls : List (List Bool)
  tickOfLastBlock : ℤ
  fillPercentage : ℤ
  requiredFillPercentage : ℤ
deriving DecidableEq, Repr

/-- `last(items) = items[items.length - 1]`, with a default for the empty
case (the source only applies `last` to non-empty arrays). -/
def lastItem (items : List α) (d : α) : α :=
  listGetZ items ((items.length : ℤ) - 1) d

/-- `levels[level] || last(levels)`: the descriptor for a level index,
clamped to the final entry beyond the table. -/
def levelDataFor (level : Nat) : LevelData :=
  match levels.get? level with
  | some d => d
  | none => lastItem levels ⟨10, 95⟩

/-- `createInitialGameState({ level })`. -/
def createInitialGameState (level : Nat) : GameState :=
  let levelData := levelDataFor level
  { level := level
    state := "running"
    tick := 0
    spider := ⟨0, 0⟩
    thread := ⟨true, []⟩
    pressedDirections := [Direction.left]
    snake :=
      { direction := Direction.left
        points := (List.range levelData.snakeLength).map
          (fun (index : Nat) =>
            ⟨BOARD_COLS - 1 - (levelData.snakeLength : ℤ) + (index : ℤ), BOARD_ROWS - 2⟩) }
    walls := (List.range BOARD_ROWS.toNat).map
      (fun (row : Nat) => (List.range BOARD_COLS.toNat).map
        (fun (col : Nat) => isBorder (col : ℤ) (row : ℤ)))
    tickOfLastBlock := 0
    fillPercentage := 0
    requiredFillPercentage := levelData.requiredFillPercentage }

/-- `limit(position, min, max)`. -/
def limit (position mn mx : ℤ) : ℤ :=
  min (max mn position) (mx - 1)

/-- `randomItem(items) = items[Math.floor(Math.random() * items.length)]`,
parameterised by an oracle `k`; `Math.floor(Math.random() * n)` is uniform
over `[0, n)` and every such index equals `k % n` for some `k`. -/
def randomItem (k : Nat) (items : List α) (d : α) : α :=
  items.getD (k % items.length) d

/-- `getSpider(nextDirection, spider)`.  The direction is an `Option`
because the source reads it from the queue front, where `undefined` fails
every comparison and leaves the coordinate unchanged. -/
def getSpider (nextDirection : Option Direction) (spider : Point) : Point :=
  let nextSpiderX :=
    if nextDirection == some Direction.right then limit (spider.x + 1) 0 BOARD_COLS
    else if nextDirection == some Direction.left then limit (spider.x - 1) 0 BOARD_COLS
    else spider.x
  let nextSpiderY :=
    if nextDirection == some Direction.up then limit (spider.y - 1) 0 BOARD_ROWS
    else if nextDirection == some Direction.down then limit (spider.y + 1) 0 BOARD_ROWS
    else spider.y
  ⟨nextSpiderX, nextSpiderY⟩

/-- `getPossibleSnakeHeadPositions(head)` as a function from the field name.
The source swaps `up`/`down` arithmetic relative to the runner (`up` adds to
`y`); reproduced exactly. -/
def getPossibleSnakeHeadPositions (head : Point) : Direction → Point
  | Direction.left => ⟨limit (head.x - 1) 1 (BOARD_COLS - 1), head.y⟩
  | Direction.right => ⟨limit (head.x + 1) 1 (BOARD_COLS - 1), head.y⟩
  | Direction.up => ⟨head.x, limit (head.y + 1) 1 (BOARD_ROWS - 1)⟩
  | Direction.down => ⟨head.x, limit (head.y - 1) 1 (BOARD_ROWS - 1)⟩

/-- `getCanGo(snake, possibleSnakeHeadPositions, walls)` as a function from
the field name. -/
def getCanGo (snake : Snake) (pos : Direction → Point) (walls : List (List Bool)) :
    Direction → Bool
  | Direction.left =>
      snake.direction != Direction.right
      && !(snake.points.any (fun dot => hasSamePosition dot (pos Direction.left)))
      && !isWall walls (pos Direction.left).x (pos Direction.left).y
  | Direction.right =>
      snake.direction != Direction.left
      && !(snake.points.any (fun dot => hasSamePosition dot (pos Direction.right)))
      && !isWall walls (pos Direction.right).x (pos Direction.right).y
  | Direction.up =>
      snake.direction != Direction.down
      && !(snake.points.any (fun dot => hasSamePosition dot (pos Direction.up)))
      && !isWall walls (pos Direction.up).x (pos Direction.up).y
  | Direction.down =>
      snake.direction != Direction.up
      && !(snake.points.any (fun dot => hasSamePosition dot (pos Direction.down)))
      && !isWall walls (pos Direction.down).x (pos Direction.down).y

/-- `getPossibleDirections(canGo)`, in the source's push order. -/
def getPossibleDirections (canGo : Direction → Bool) : List Direction :=
  (if canGo Direction.left then [Direction.left] else [])
    ++ (if canGo Direction.right then [Direction.right] else [])
    ++ (if canGo Direction.up then [Direction.up] else [])
    ++ (if canGo Direction.down then [Direction.down] else [])

/-- `getSnake(state)`, with the `Math.random()` draw supplied by oracle `k`.
`state.snake.points[0]` is only read on non-empty bodies in every reachable
state; the default head is immaterial there. -/
def getSnake (state : GameState) (k : Nat) : Snake :=
  let head := state.snake.points.getD 0 ⟨0, 0⟩
  let possibleSnakeHeadPositions := getPossibleSnakeHeadPositions head
  let canGo := getCanGo state.snake possibleSnakeHeadPositions state.walls
  let possibleDirections := getPossibleDirections canGo
  if possibleDirections.length = 0 then
    { state.snake with
      direction := randomItem k
        [Direction.up, Direction.down, Direction.left, Direction.right] Direction.up
      points := state.snake.points.reverse }
  else
    let nextDirection := randomItem k
      (List.replicate (if canGo state.snake.direction then 2 else 0) state.snake.direction
        ++ possibleDirections) Direction.up
    let nextHead := possibleSnakeHeadPositions nextDirection
    { state.snake with
      direction := nextDirection
      points := nextHead :: state.snake.points.take (state.snake.points.length - 1) }

/-- `getThread(thread, spider)`. -/
def getThread (thread : Thread) (spider : Point) : Thread :=
  let prevDot := getZ? thread.points ((thread.points.length : ℤ) - 2)
  let isSpiderGoingBack :=
    match prevDot with
    | some dot => hasCoordinates dot spider.x spider.y
    | none => false
  let isIntertwined := thread.points.any (fun dot => hasCoordinates dot spider.x spider.y)
  let nextCanDraw :=
    if isSpiderGoingBack then true
    else if isIntertwined then false
    else thread.draw
  if !nextCanDraw then ⟨false, []⟩
  else
    ⟨true,
      if isSpiderGoingBack then thread.points.dropLast
      else
        let lastPoint := thread.points.getLast?
        let nextPoint : Point := ⟨spider.x, spider.y⟩
        match lastPoint with
        | some lp => if hasSamePosition lp nextPoint then thread.points
                     else thread.points ++ [nextPoint]
        | none => thread.points ++ [nextPoint]⟩

/-- The per-tick trail computation: the IIFE assigned to `thread` in the
`tick` case of `gameReducer`.  `snakeHead` is the freshly moved hunter's
head `snake.points[0]` and `spider` the freshly moved runner. -/
def computeThread (walls : List (List Bool)) (thread : Thread) (snakeHead spider : Point)
    (tick : ℤ) : Thread :=
  if isWall walls spider.x spider.y then { thread with draw := true, points := [] }
  else if thread.points.any (fun dot => hasSamePosition dot snakeHead) then
    { thread with draw := false, points := [] }
  else if tick % 2 ≠ 0 then thread
  else getThread thread spider

/-- The hunter moved this tick (`const snake = getSnake(state, ...)`). -/
def tickSnake (state : GameState) (k : Nat) : Snake :=
  getSnake state k

/-- The queue after this tick's dequeue/peek. -/
def tickPressedDirections (state : GameState) : List Direction :=
  if state.tick % 2 ≠ 0 then (consumePressedDirection state.pressedDirections).1
  else state.pressedDirections

/-- The heading used this tick. -/
def tickDirection (state : GameState) : Option Direction :=
  if state.tick % 2 ≠ 0 then (consumePressedDirection state.pressedDirections).2
  else state.pressedDirections.head?

/-- The runner position after this tick (moves only on even ticks). -/
def tickSpider (state : GameState) : Point :=
  if state.tick % 2 ≠ 0 then state.spider
  else getSpider (tickDirection state) state.spider

/-- `isEaten`: the runner touches any hunter body point. -/
def tickIsEaten (state : GameState) (k : Nat) : Bool :=
  (tickSnake state k).points.any (fun point => hasSamePosition point (tickSpider state))

/-- `hasFinishedBlock`: the runner is on a filled cell with a non-empty
trail recorded. -/
def tickHasFinishedBlock (state : GameState) : Bool :=
  isWall state.walls (tickSpider state).x (tickSpider state).y
    && decide (state.thread.points.length > 0)

/-- The grid after this tick: on a finished block, write every trail point
into the walls and seal the holes from the hunter's new head. -/
def tickWalls (state : GameState) (k : Nat) : List (List Bool) :=
  if tickHasFinishedBlock state then
    fillHoles
      (state.thread.points.foldl (fun nextWalls point => fillWall nextWalls point.x point.y)
        state.walls)
      ((tickSnake state k).points.getD 0 ⟨0, 0⟩)
  else state.walls

/-- The fill percentage after this tick. -/
def tickFillPercentage (state : GameState) (k : Nat) : ℤ :=
  if tickHasFinishedBlock state then getFillPercentage (tickWalls state k)
  else state.fillPercentage

/-- The `tick` case of `gameReducer`. -/
def applyTick (state : GameState) (k : Nat) : GameState :=
  let snake := tickSnake state k
  let pressedDirections := tickPressedDirections state
  let spider := tickSpider state
  if tickIsEaten state k then
    { state with
      state := "over-eaten", spider := spider, snake := snake,
      pressedDirections := pressedDirections }
  else if ((state.tick - state.tickOfLastBlock : ℤ) : ℚ) > blockTicks then
    { state with
      state := "over-timeout", spider := spider, snake := snake,
      pressedDirections := pressedDirections }
  else
    let thread := computeThread state.walls state.thread (snake.points.getD 0 ⟨0, 0⟩)
      spider state.tick
    let walls := tickWalls state k
    let fillPercentage := tickFillPercentage state k
    let nextState :=
      { state with
        tick := state.tick + 1
        pressedDirections := pressedDirections
        spider := spider
        snake := snake
        thread := thread
        walls := walls
        tickOfLastBlock :=
          if tickHasFinishedBlock state then state.tick + 1 else state.tickOfLastBlock
        fillPercentage := fillPercentage }
    if fillPercentage ≥ state.requiredFillPercentage then
      { nextState with state := "level-completed" }
    else nextState

/-- The `direction` case of `gameReducer`. -/
def applyDirection (state : GameState) (direction : Direction) : GameState :=
  if (match state.pressedDirections.getLast? with
      | some d => d == direction
      | none => false) then state
  else { state with pressedDirections := state.pressedDirections ++ [direction] }

/-- The `restart` case of `gameReducer`. -/
def applyRestart (_state : GameState) : GameState :=
  createInitialGameState 0

/-- The `next-level` case of `gameReducer`. -/
def applyNextLevel (state : GameState) : GameState :=
  createInitialGameState (state.level + 1)

/-- A raw control event as dispatched to the reducer: an arbitrary `type`
tag plus the payloads the recognized events carry (`seed` stands for the
tick's `Math.random()` draws). -/
structure RawEvent where
  type : String
  payload : Option Direction := none
  seed : Nat := 0

/-- `gameReducer(state, action)`: the switch over `action.type`; the default
case is `throw new Error()`, modelled as `Except.error`. -/
def gameReducer (state : GameState) (action : RawEvent) : Except Unit GameState :=
  if action.type == "direction" then
    Except.ok (applyDirection state (action.payload.getD Direction.left))
  else if action.type == "restart" then Except.ok (applyRestart state)
  else if action.type == "next-level" then Except.ok (applyNextLevel state)
  else if action.type == "tick" then Except.ok (applyTick state action.seed)
  else Except.error ()

/-- The states reachable from the initial state of any level by ticks (with
any random draws), direction inputs, restarts and level advances. -/
inductive Reachable : GameState → Prop
  | init (level : Nat) : Reachable (createInitialGameState level)
  | tick (s : GameState) (k : Nat) : Reachable s → Reachable (applyTick s k)
  | dir (s : GameState) (d : Direction) : Reachable s → Reachable (applyDirection s d)
  | restart (s : GameState) : Reachable s → Reachable (applyRestart s)
  | next (s : GameState) : Reachable s → Reachable (applyNextLevel s)

theorem applyTick_spider (s : GameState) (k : Nat) :
    (applyTick s k).spider = tickSpider s := by
  simp only [applyTick]
  split_ifs <;> rfl

theorem applyTick_pressedDirections (s : GameState) (k : Nat) :
    (applyTick s k).pressedDirections = tickPressedDirections s := by
  simp only [applyTick]
  split_ifs <;> rfl

theorem applyTick_snake (s : GameState) (k : Nat) :
    (applyTick s k).snake = tickSnake s k := by
  simp only [applyTick]
  split_ifs <;> rfl

theorem applyTick_walls (s : GameState) (k : Nat)
    (hne : tickIsEaten s k = false)
    (hnt : ¬ ((s.tick - s.tickOfLastBlock : ℤ) : ℚ) > blockTicks) :
    (applyTick s k).walls = tickWalls s k := by
  simp only [applyTick, hne]
  split_ifs <;> simp_all

theorem tickSpider_odd (s : GameState) (h : s.tick % 2 ≠ 0) :
    tickSpider s = s.spider := by
  simp [tickSpider, h]

theorem tickPressedDirections_even (s : GameState) (h : s.tick % 2 = 0) :
    tickPressedDirections s = s.pressedDirections := by
  simp [tickPressedDirections, h]

theorem tickPressedDirections_odd (s : GameState) (h : s.tick % 2 ≠ 0) :
    tickPressedDirections s =
      if s.pressedDirections.length > 1 then s.pressedDirections.tail
      else s.pressedDirections := by
  simp [tickPressedDirections, h, consumePressedDirection]

/-- C3: in every running state a tick changes the runner's position only on
even ticks (odd ticks leave it unchanged), the pending-direction queue loses
at most one entry, only on odd ticks and only when it holds more than one
entry (otherwise the sole entry is retained), and on even ticks the queue is
read without popping. -/
theorem claim3_tick_parity (s : GameState) (k : Nat) (_hrun : s.state = "running") :
    (s.tick % 2 ≠ 0 → (applyTick s k).spider = s.spider)
    ∧ (s.tick % 2 = 0 → (applyTick s k).pressedDirections = s.pressedDirections)
    ∧ (s.tick % 2 ≠ 0 → (applyTick s k).pressedDirections =
        if s.pressedDirections.length > 1 then s.pressedDirections.tail
        else s.pressedDirections) := by
  refine ⟨fun h => ?_, fun h => ?_, fun h => ?_⟩
  · rw [applyTick_spider, tickSpider_odd s h]
  · rw [applyTick_pressedDirections, tickPressedDirections_even s h]
  · rw [applyTick_pressedDirections, tickPressedDirections_odd s h]

/-- Witness for C3 at the freshly initialised level-0 state with oracle 0. -/
theorem claim3_witness :
    (createInitialGameState 0).state = "running"
    ∧ (createInitialGameState 0).tick % 2 = 0
    ∧ (applyTick (createInitialGameState 0) 0).pressedDirections
        = (createInitialGameState 0).pressedDirections :=
  ⟨rfl, by decide, (claim3_tick_parity (createInitialGameState 0) 0 rfl).2.1 (by decide)⟩

/-- C5: for a running state that the current tick does not end by collision,
the tick transitions to over-timeout exactly when the ticks elapsed since
the last completed capture exceed the time budget `blockTicks`, and while
the elapsed ticks are within the budget the lifecycle stays running absent
completion. -/
theorem claim5_timeout (s : GameState) (k : Nat) (hrun : s.state = "running")
    (hne : tickIsEaten s k = false) :
    ((applyTick s k).state = "over-timeout"
        ↔ ((s.tick - s.tickOfLastBlock : ℤ) : ℚ) > blockTicks)
    ∧ (¬ ((s.tick - s.tickOfLastBlock : ℤ) : ℚ) > blockTicks →
        (applyTick s k).state = "running" ∨ (applyTick s k).state = "level-completed") := by
  constructor
  · constructor
    · intro hst
      by_contra hto
      simp only [applyTick, hne, Bool.false_eq_true, if_false, hto] at hst
      split_ifs at hst <;> simp_all
    · intro hto
      have hto' : blockTicks < (s.tick : ℚ) - (s.tickOfLastBlock : ℚ) := by
        push_cast at hto
        linarith
      simp [applyTick, hne, hto']
  · intro hto
    simp only [applyTick, hne, Bool.false_eq_true, if_false, hto]
    split_ifs <;> simp_all

/-- Witness for C5 at the freshly initialised level-0 state with oracle 0:
no time has elapsed, so the tick does not time out. -/
theorem claim5_witness :
    (createInitialGameState 0).state = "running"
    ∧ tickIsEaten (createInitialGameState 0) 0 = false
    ∧ ((applyTick (createInitialGameState 0) 0).state = "over-timeout"
        ↔ (((createInitialGameState 0).tick - (createInitialGameState 0).tickOfLastBlock : ℤ) : ℚ)
            > blockTicks) :=
  ⟨rfl, by decide, (claim5_timeout (createInitialGameState 0) 0 rfl (by decide)).1⟩

/-- C8: the reducer returns a state for exactly the four recognized control
event types and raises an error on every other type, never silently
swallowing it. -/
theorem claim8_unrecognized_event (s : GameState) (e : RawEvent) :
    (∃ s', gameReducer s e = Except.ok s')
      ↔ (e.type = "direction" ∨ e.type = "restart" ∨ e.type = "next-level" ∨ e.type = "tick") := by
  unfold gameReducer
  split_ifs with h1 h2 h3 h4 <;>
    simp_all [beq_iff_eq]

/-- C9: dispatching a direction event equal to the back of the
pending queue is swallowed (the state is returned unchanged), any other
payload appends exactly one entry to the back, and consequently dispatching
the same direction twice is idempotent. -/
theorem claim9_direction_idempotent (s : GameState) (d : Direction) :
    (s.pressedDirections.getLast? = some d → applyDirection s d = s)
    ∧ (s.pressedDirections.getLast? ≠ some d →
        applyDirection s d = { s with pressedDirections := s.pressedDirections ++ [d] })
    ∧ applyDirection (applyDirection s d) d = applyDirection s d := by
  refine ⟨fun h => ?_, fun h => ?_, ?_⟩
  · simp [applyDirection, h]
  · unfold applyDirection
    cases hl : s.pressedDirections.getLast? with
    | none => simp
    | some x =>
        rw [hl] at h
        have hx : x ≠ d := fun hxd => h (by rw [hxd])
        simp [hx]
  · by_cases h : s.pressedDirections.getLast? = some d
    · simp [applyDirection, h]
    · unfold applyDirection
      cases hl : s.pressedDirections.getLast? with
      | none =>
          simp only [hl]
          simp [List.getLast?_append]
      | some x =>
          rw [hl] at h
          have hx : x ≠ d := fun hxd => h (by rw [hxd])
          simp [hx, List.getLast?_append]

/-- Witness for C9: enqueueing `left` onto the initial queue (whose back is
already `left`) returns the state unchanged. -/
theorem claim9_witness :
    (createInitialGameState 0).pressedDirections.getLast? = some Direction.left
    ∧ applyDirection (createInitialGameState 0) Direction.left = createInitialGameState 0 :=
  ⟨by decide, (claim9_direction_idempotent (createInitialGameState 0) Direction.left).1 (by decide)⟩

/-- C1 fails on the code: in the per-tick trail update the runner-on-filled-
cell test is evaluated before the head-in-trail test, so a running state
whose runner sits on a filled cell while the hunter's head lies in the
trail yields a trail with drawing re-enabled, not forced to Idle. -/
theorem claim1_counterexample :
    isWall (createInitialGameState 0).walls 0 0 = true
    ∧ (Thread.mk true [⟨5, 5⟩]).points.any
        (fun dot => hasSamePosition dot ⟨5, 5⟩) = true
    ∧ computeThread (createInitialGameState 0).walls ⟨true, [⟨5, 5⟩]⟩ ⟨5, 5⟩ ⟨0, 0⟩ 0
        = ⟨true, []⟩ := by
  refine ⟨by decide, by decide, by decide⟩

/-- C1 (amended): in the per-tick trail update the runner-on-filled-cell
check has highest precedence — on a filled cell the trail resets to empty
with drawing enabled — and only when the runner is not on a filled cell
does the hunter's head lying anywhere within the trail force drawing to
Idle with the points cleared. -/
theorem claim1_amended (walls : List (List Bool)) (thread : Thread)
    (snakeHead spider : Point) (tick : ℤ) :
    (isWall walls spider.x spider.y = true →
      computeThread walls thread snakeHead spider tick = ⟨true, []⟩)
    ∧ (isWall walls spider.x spider.y = false →
        thread.points.any (fun dot => hasSamePosition dot snakeHead) = true →
        computeThread walls thread snakeHead spider tick = ⟨false, []⟩) := by
  constructor
  · intro h
    simp [computeThread, h]
  · intro h hin
    simp [computeThread, h, hin]

/-- Witness for C1 (amended): with the runner off the walls and the hunter's
head on the single trail point, the trail is destroyed. -/
theorem claim1_amended_witness :
    isWall (createInitialGameState 0).walls 5 6 = false
    ∧ computeThread (createInitialGameState 0).walls ⟨true, [⟨5, 5⟩]⟩ ⟨5, 5⟩ ⟨5, 6⟩ 0
        = ⟨false, []⟩ :=
  ⟨by decide,
   (claim1_amended (createInitialGameState 0).walls ⟨true, [⟨5, 5⟩]⟩ ⟨5, 5⟩ ⟨5, 6⟩ 0).2
     (by decide) (by decide)⟩

/-- The grid has the fixed board dimensions. -/
def wallsShape (walls : List (List Bool)) : Prop :=
  walls.length = BOARD_ROWS.toNat ∧ ∀ row ∈ walls, row.length = BOARD_COLS.toNat

/-- Every cell of the border ring is filled. -/
def borderFilled (walls : List (List Bool)) : Prop :=
  ∀ x : Nat, x < BOARD_COLS.toNat → ∀ y : Nat, y < BOARD_ROWS.toNat →
    isBorder x y = true → isWall walls x y = true

instance : DecidablePred wallsShape := fun walls => by
  unfold wallsShape
  infer_instance

instance : DecidablePred borderFilled := fun walls => by
  unfold borderFilled
  infer_instance

/-- Spec-side count of filled cells of the whole grid. -/
def specFilledCells (walls : List (List Bool)) : ℕ :=
  (walls.map (fun row => row.count true)).sum

/-- Spec-side count of the border-ring cells of the board. -/
def specBorderCells : ℕ :=
  ((Finset.range BOARD_ROWS.toNat ×ˢ Finset.range BOARD_COLS.toNat).filter
    (fun q => isBorder (q.2 : ℤ) (q.1 : ℤ))).card

/-- Spec-side total cell count of the board. -/
def specTotalCells : ℕ := BOARD_ROWS.toNat * BOARD_COLS.toNat

/-- The fill percentage exactly as the spec words it:
`round(100 * filled_cells_excluding_border / total_cells_excluding_border)`,
with the border-ring count subtracted from numerator and denominator and
round-half-up rounding. -/
def specFillPercentage (walls : List (List Bool)) : ℤ :=
  jsRound (100 * ((specFilledCells walls : ℚ) - (specBorderCells : ℚ))
    / ((specTotalCells : ℚ) - (specBorderCells : ℚ)))

set_option maxRecDepth 4000 in
theorem specBorderCells_eq : specBorderCells = 116 := by decide

theorem foldl_count_true (l : List Bool) (a : ℤ) :
    l.foldl (fun acc fill => if fill then acc + 1 else acc) a = a + (l.count true : ℕ) := by
  induction l generalizing a with
  | nil => simp
  | cons b t ih =>
      simp only [List.foldl_cons]
      rw [ih]
      cases b <;> simp [List.count_cons] <;> omega

theorem foldl_sum_count (w : List (List Bool)) (a : ℤ) :
    w.foldl
      (fun acc rows => acc + rows.foldl (fun acc fill => if fill then acc + 1 else acc) 0) a
      = a + (specFilledCells w : ℕ) := by
  induction w generalizing a with
  | nil => simp [specFilledCells]
  | cons r t ih =>
      simp only [List.foldl_cons]
      rw [ih]
      have hr := foldl_count_true r 0
      simp only [hr, specFilledCells, List.map_cons, List.sum_cons]
      push_cast
      ring

theorem count_true_mono (r1 : List Bool) :
    ∀ r2 : List Bool, r1.length = r2.length →
      (∀ i : Nat, r1.get? i = some true → r2.get? i = some true) →
      r1.count true ≤ r2.count true := by
  induction r1 with
  | nil => intro r2 _ _; simp
  | cons a t1 ih =>
      intro r2 hlen h
      cases r2 with
      | nil => simp at hlen
      | cons b t2 =>
          have htail : t1.count true ≤ t2.count true := by
            refine ih t2 (by simpa using hlen) (fun i hi => ?_)
            have := h (i + 1) (by simpa using hi)
            simpa using this
          cases a with
          | false =>
              have h2 : (false :: t1).count true = t1.count true := by
                simp [List.count_cons]
              have h3 : t2.count true ≤ (b :: t2).count true := by
                cases b <;> simp [List.count_cons]
              omega
          | true =>
              have hb : b = true := by
                have := h 0 (by simp)
                simpa using this
              subst hb
              have h2 : (true :: t1).count true = t1.count true + 1 := by
                simp [List.count_cons]
              have h3 : (true :: t2).count true = t2.count true + 1 := by
                simp [List.count_cons]
              omega

theorem specFilledCells_mono (g1 : List (List Bool)) :
    ∀ g2 : List (List Bool), g1.length = g2.length →
      (∀ j : Nat, (g1.get? j).map List.length = (g2.get? j).map List.length) →
      (∀ j i : Nat, (g1.get? j).bind (fun r => r.get? i) = some true →
        (g2.get? j).bind (fun r => r.get? i) = some true) →
      specFilledCells g1 ≤ specFilledCells g2 := by
  induction g1 with
  | nil => intro g2 _ _ _; simp [specFilledCells]
  | cons r1 t1 ih =>
      intro g2 hlen hrow h
      cases g2 with
      | nil => simp at hlen
      | cons r2 t2 =>
          have hhead : r1.count true ≤ r2.count true := by
            refine count_true_mono r1 r2 ?_ (fun i hi => ?_)
            · have := hrow 0
              simpa using this
            · have := h 0 i (by simpa using hi)
              simpa using this
          have htail : specFilledCells t1 ≤ specFilledCells t2 := by
            refine ih t2 (by simpa using hlen) (fun j => ?_) (fun j i hji => ?_)
            · have := hrow (j + 1)
              simpa using this
            · have := h (j + 1) i (by simpa using hji)
              simpa using this
          simp only [specFilledCells, List.map_cons, List.sum_cons]
          exact Nat.add_le_add hhead htail

/-- The freshly initialised grid, shared by every level. -/
theorem initWalls_eq (level : Nat) :
    (createInitialGameState level).walls
      = (List.range BOARD_ROWS.toNat).map
          (fun (row : Nat) => (List.range BOARD_COLS.toNat).map
            (fun (col : Nat) => isBorder (col : ℤ) (row : ℤ))) := rfl

theorem initWalls_row (level j : Nat) (hj : j < BOARD_ROWS.toNat) :
    (createInitialGameState level).walls.get? j
      = some ((List.range BOARD_COLS.toNat).map
          (fun (col : Nat) => isBorder (col : ℤ) (j : ℤ))) := by
  rw [initWalls_eq, List.get?_map, List.get?_range hj]
  rfl

theorem initWalls_row_none (level j : Nat) (hj : ¬ j < BOARD_ROWS.toNat) :
    (createInitialGameState level).walls.get? j = none := by
  rw [initWalls_eq, List.get?_map]
  have : (List.range BOARD_ROWS.toNat).get? j = none := by
    rw [List.get?_eq_none]
    simpa using Nat.le_of_not_lt hj
  rw [this]
  rfl

theorem initWalls_cell (level j i : Nat) :
    ((createInitialGameState level).walls.get? j).bind (fun r => r.get? i) = some true
      → i < BOARD_COLS.toNat ∧ j < BOARD_ROWS.toNat ∧ isBorder (i : ℤ) (j : ℤ) = true := by
  intro h
  by_cases hj : j < BOARD_ROWS.toNat
  · rw [initWalls_row level j hj] at h
    simp only [Option.some_bind] at h
    by_cases hi : i < BOARD_COLS.toNat
    · rw [List.get?_map, List.get?_range hi] at h
      simp only [Option.map_some'] at h
      exact ⟨hi, hj, by simpa using h⟩
    · rw [List.get?_map] at h
      have hnone : (List.range BOARD_COLS.toNat).get? i = none := by
        rw [List.get?_eq_none]
        simpa using Nat.le_of_not_lt hi
      rw [hnone] at h
      simp at h
  · rw [initWalls_row_none level j hj] at h
    exact absurd h (by simp)

theorem isWall_eq_get (walls : List (List Bool)) (i j : Nat) :
    isWall walls (i : ℤ) (j : ℤ)
      = (((walls.get? j).getD []).get? i).getD false := by
  simp [isWall, listGetZ, Int.toNat_natCast]

theorem get_of_isWall (walls : List (List Bool)) (i j : Nat)
    (h : isWall walls (i : ℤ) (j : ℤ) = true) :
    (walls.get? j).bind (fun r => r.get? i) = some true := by
  rw [isWall_eq_get] at h
  cases hj : walls.get? j with
  | none => rw [hj] at h; simp at h
  | some r =>
      rw [hj] at h
      simp only [Option.getD_some] at h
      cases hi : r.get? i with
      | none => rw [hi] at h; simp at h
      | some b =>
          rw [hi] at h
          simp only [Option.getD_some] at h
          show r.get? i = some true
          rw [hi, h]

theorem specFilledCells_init :
    specFilledCells (createInitialGameState 0).walls = 116 := by decide

theorem specFilledCells_of_borderFilled (walls : List (List Bool))
    (hsh : wallsShape walls) (hbf : borderFilled walls) :
    116 ≤ specFilledCells walls := by
  rw [← specFilledCells_init]
  apply specFilledCells_mono
  · rw [initWalls_eq]
    simp [hsh.1]
  · intro j
    by_cases hj : j < BOARD_ROWS.toNat
    · rw [initWalls_row 0 j hj]
      have hjlt : j < walls.length := by rw [hsh.1]; exact hj
      rw [List.get?_eq_get hjlt]
      have hmem : walls.get ⟨j, hjlt⟩ ∈ walls := List.get_mem walls j hjlt
      have h40 := hsh.2 _ hmem
      simp only [List.get_eq_getElem] at h40
      simp [h40]
    · rw [initWalls_row_none 0 j hj]
      have : walls.get? j = none := by
        rw [List.get?_eq_none, hsh.1]
        exact Nat.le_of_not_lt hj
      rw [this]
  · intro j i h
    obtain ⟨hi, hj, hb⟩ := initWalls_cell 0 j i h
    exact get_of_isWall walls i j (hbf i hi j hj hb)

/-- C4: the recomputed fill percentage equals the spec's
`round(100 * filled_cells_excluding_border / total_cells_excluding_border)`
with the border-ring count subtracted from numerator and denominator and
round-half-up rounding, and it is never negative on a grid whose border
ring is filled. -/
theorem claim4_fill_percentage (walls : List (List Bool)) :
    getFillPercentage walls = specFillPercentage walls
    ∧ (wallsShape walls → borderFilled walls → 0 ≤ getFillPercentage walls) := by
  have hcode : getFillPercentage walls
      = jsRound ((((specFilledCells walls : ℤ) : ℚ) - 116) / 684 * 100) := by
    simp only [getFillPercentage, foldl_sum_count]
    norm_num [BOARD_COLS, BOARD_ROWS]
    congr 1
    push_cast
    ring
  have htot800 : specTotalCells = 800 := by decide
  have htot : ((specTotalCells : ℚ)) = 800 := by rw [htot800]; norm_num
  constructor
  · rw [hcode]
    unfold specFillPercentage
    rw [specBorderCells_eq, htot]
    congr 1
    push_cast
    ring
  · intro hsh hbf
    have hc := specFilledCells_of_borderFilled walls hsh hbf
    have hc' : (116 : ℚ) ≤ (specFilledCells walls : ℚ) := by exact_mod_cast hc
    rw [hcode]
    unfold jsRound
    rw [Int.le_floor]
    have h0 : (0 : ℚ) ≤ ((specFilledCells walls : ℚ) - 116) / 684 * 100 := by
      apply mul_nonneg
      · apply div_nonneg
        · linarith
        · norm_num
      · norm_num
    push_cast
    push_cast at h0
    linarith

/-- Witness for C4's conditional part at the freshly initialised grid. -/
theorem claim4_witness :
    wallsShape (createInitialGameState 0).walls
    ∧ borderFilled (createInitialGameState 0).walls
    ∧ 0 ≤ getFillPercentage (createInitialGameState 0).walls :=
  ⟨by decide, by decide,
   (claim4_fill_percentage (createInitialGameState 0).walls).2 (by decide) (by decide)⟩

theorem mapIdxFrom_length (f : Nat → α → β) (i : Nat) (l : List α) :
    (mapIdxFrom f i l).length = l.length := by
  induction l generalizing i with
  | nil => rfl
  | cons a t ih => simp [mapIdxFrom, ih]

theorem mapIdxFrom_get? (f : Nat → α → β) (l : List α) :
    ∀ i n : Nat, (mapIdxFrom f i l).get? n = (l.get? n).map (f (i + n)) := by
  induction l with
  | nil => intro i n; rfl
  | cons a t ih =>
      intro i n
      cases n with
      | zero => simp [mapIdxFrom]
      | succ m =>
          have harith : i + (m + 1) = (i + 1) + m := by omega
          simp only [mapIdxFrom, List.get?_cons_succ]
          rw [ih (i + 1) m, harith]

theorem jsMapIdx_length (f : Nat → α → β) (l : List α) :
    (jsMapIdx f l).length = l.length := mapIdxFrom_length f 0 l

theorem jsMapIdx_get? (f : Nat → α → β) (l : List α) (n : Nat) :
    (jsMapIdx f l).get? n = (l.get? n).map (f n) := by
  simpa using mapIdxFrom_get? f l 0 n

theorem mem_mapIdxFrom {f : Nat → α → β} {b : β} {l : List α} :
    ∀ i : Nat, b ∈ mapIdxFrom f i l → ∃ n a, a ∈ l ∧ b = f n a := by
  induction l with
  | nil => intro i h; simp [mapIdxFrom] at h
  | cons a t ih =>
      intro i h
      simp only [mapIdxFrom, List.mem_cons] at h
      cases h with
      | inl h => exact ⟨i, a, List.mem_cons_self a t, h⟩
      | inr h =>
          obtain ⟨n, a', ha', hb⟩ := ih (i + 1) h
          exact ⟨n, a', List.mem_cons_of_mem a ha', hb⟩

theorem isWall_false_of_neg (w : List (List Bool)) (x y : ℤ) (h : ¬ (0 ≤ x ∧ 0 ≤ y)) :
    isWall w x y = false := by
  simp only [isWall, listGetZ]
  by_cases hy : 0 ≤ y
  · by_cases hx : 0 ≤ x
    · exact absurd ⟨hx, hy⟩ h
    · simp [hx]
  · by_cases hx : 0 ≤ x <;> simp [hx, hy]

theorem isWall_fillWall_mono (w : List (List Bool)) (a b x y : ℤ)
    (h : isWall w x y = true) : isWall (fillWall w a b) x y = true := by
  by_cases hxy : 0 ≤ x ∧ 0 ≤ y
  · obtain ⟨hx, hy⟩ := hxy
    simp only [isWall, listGetZ, hx, hy, if_true] at h ⊢
    rw [fillWall, jsMapIdx_get?]
    cases hr : w.get? y.toNat with
    | none => rw [hr] at h; simp at h
    | some row =>
        rw [hr] at h
        simp only [Option.map_some', Option.getD_some] at h ⊢
        split_ifs with hb
        · exact h
        · rw [jsMapIdx_get?]
          cases hc : row.get? x.toNat with
          | none => rw [hc] at h; simp at h
          | some fill =>
              rw [hc] at h
              simp only [Option.getD_some] at h
              simp only [Option.map_some', Option.getD_some]
              split_ifs with ha
              · rfl
              · exact h
  · rw [isWall_false_of_neg w x y hxy] at h
    exact absurd h (by simp)

theorem isWall_fillNonSnakeArea_mono (w : List (List Bool)) (A : List Point) (x y : ℤ)
    (h : isWall w x y = true) : isWall (fillNonSnakeArea w A) x y = true := by
  by_cases hxy : 0 ≤ x ∧ 0 ≤ y
  · obtain ⟨hx, hy⟩ := hxy
    simp only [isWall, listGetZ, hx, hy, if_true] at h ⊢
    rw [fillNonSnakeArea, jsMapIdx_get?]
    cases hr : w.get? y.toNat with
    | none => rw [hr] at h; simp at h
    | some row =>
        rw [hr] at h
        simp only [Option.map_some', Option.getD_some] at h ⊢
        rw [jsMapIdx_get?]
        cases hc : row.get? x.toNat with
        | none => rw [hc] at h; simp at h
        | some fill =>
            rw [hc] at h
            simp only [Option.getD_some] at h
            simp only [Option.map_some', Option.getD_some]
            split_ifs with ha
            · exact h
            · rfl
  · rw [isWall_false_of_neg w x y hxy] at h
    exact absurd h (by simp)

theorem isWall_foldl_fillWall_mono (ps : List Point) :
    ∀ (w : List (List Bool)) (x y : ℤ), isWall w x y = true →
      isWall (ps.foldl (fun nextWalls point => fillWall nextWalls point.x point.y) w) x y
        = true := by
  induction ps with
  | nil => intro w x y h; exact h
  | cons p t ih =>
      intro w x y h
      simp only [List.foldl_cons]
      exact ih _ x y (isWall_fillWall_mono w p.x p.y x y h)

theorem fillWall_shape (w : List (List Bool)) (a b : ℤ) (h : wallsShape w) :
    wallsShape (fillWall w a b) := by
  constructor
  · rw [fillWall, jsMapIdx_length]
    exact h.1
  · intro row hrow
    obtain ⟨n, r, hr, heq⟩ := mem_mapIdxFrom 0 hrow
    subst heq
    split_ifs
    · exact h.2 r hr
    · rw [jsMapIdx_length]
      exact h.2 r hr

theorem fillNonSnakeArea_shape (w : List (List Bool)) (A : List Point) (h : wallsShape w) :
    wallsShape (fillNonSnakeArea w A) := by
  constructor
  · rw [fillNonSnakeArea, jsMapIdx_length]
    exact h.1
  · intro row hrow
    obtain ⟨n, r, hr, heq⟩ := mem_mapIdxFrom 0 hrow
    subst heq
    rw [jsMapIdx_length]
    exact h.2 r hr

theorem foldl_fillWall_shape (ps : List Point) :
    ∀ w : List (List Bool), wallsShape w →
      wallsShape (ps.foldl (fun nextWalls point => fillWall nextWalls point.x point.y) w) := by
  induction ps with
  | nil => intro w h; exact h
  | cons p t ih =>
      intro w h
      simp only [List.foldl_cons]
      exact ih _ (fillWall_shape w p.x p.y h)

theorem fillHoles_shape (w : List (List Bool)) (p : Point) (h : wallsShape w) :
    wallsShape (fillHoles w p) :=
  fillNonSnakeArea_shape w _ h

theorem isWall_fillHoles_mono (w : List (List Bool)) (p : Point) (x y : ℤ)
    (h : isWall w x y = true) : isWall (fillHoles w p) x y = true :=
  isWall_fillNonSnakeArea_mono w _ x y h

theorem tickWalls_cases (s : GameState) (k : Nat) :
    tickWalls s k = s.walls
    ∨ tickWalls s k =
        fillHoles
          (s.thread.points.foldl (fun nextWalls point => fillWall nextWalls point.x point.y)
            s.walls)
          ((tickSnake s k).points.getD 0 ⟨0, 0⟩) := by
  unfold tickWalls
  split_ifs
  · exact Or.inr rfl
  · exact Or.inl rfl

theorem applyTick_walls_cases (s : GameState) (k : Nat) :
    (applyTick s k).walls = s.walls ∨ (applyTick s k).walls = tickWalls s k := by
  simp only [applyTick]
  split_ifs <;> first
    | exact Or.inl rfl
    | exact Or.inr rfl

theorem applyDirection_walls (s : GameState) (d : Direction) :
    (applyDirection s d).walls = s.walls := by
  unfold applyDirection
  split_ifs <;> rfl

theorem initWalls_shape (level : Nat) : wallsShape (createInitialGameState level).walls := by
  constructor
  · rw [initWalls_eq]
    simp [BOARD_ROWS]
  · intro row hrow
    rw [initWalls_eq] at hrow
    obtain ⟨r, _, heq⟩ := List.mem_map.1 hrow
    rw [← heq]
    simp

theorem initWalls_borderFilled (level : Nat) :
    borderFilled (createInitialGameState level).walls := by
  have hsame : (createInitialGameState level).walls = (createInitialGameState 0).walls := rfl
  rw [hsame]
  decide

theorem tickWalls_borderFilled (s : GameState) (k : Nat) (h : borderFilled s.walls) :
    borderFilled (tickWalls s k) := by
  rcases tickWalls_cases s k with hc | hc <;> rw [hc]
  · exact h
  · intro x hx y hy hb
    exact isWall_fillHoles_mono _ _ _ _
      (isWall_foldl_fillWall_mono _ _ _ _ (h x hx y hy hb))

theorem tickWalls_shape (s : GameState) (k : Nat) (h : wallsShape s.walls) :
    wallsShape (tickWalls s k) := by
  rcases tickWalls_cases s k with hc | hc <;> rw [hc]
  · exact h
  · exact fillHoles_shape _ _ (foldl_fillWall_shape _ _ h)

theorem reachable_shape (s : GameState) (h : Reachable s) : wallsShape s.walls := by
  induction h with
  | init level => exact initWalls_shape level
  | tick s k _ ih =>
      rcases applyTick_walls_cases s k with hc | hc <;> rw [hc]
      · exact ih
      · exact tickWalls_shape s k ih
  | dir s d _ ih => rw [applyDirection_walls]; exact ih
  | restart s _ _ => exact initWalls_shape 0
  | next s _ _ => exact initWalls_shape _

theorem reachable_borderFilled (s : GameState) (h : Reachable s) :
    borderFilled s.walls := by
  induction h with
  | init level => exact initWalls_borderFilled level
  | tick s k _ ih =>
      rcases applyTick_walls_cases s k with hc | hc <;> rw [hc]
      · exact ih
      · exact tickWalls_borderFilled s k ih
  | dir s d _ ih => rw [applyDirection_walls]; exact ih
  | restart s _ _ => exact initWalls_borderFilled 0
  | next s _ _ => exact initWalls_borderFilled _

/-- C2: in every state reachable from the initial state of any level by any
sequence of tick, direction, restart and next-level actions, every cell of
the border ring of the grid is filled; since every transition target is
again reachable, no transition ever un-fills a border cell. -/
theorem claim2_border_ring (s : GameState) (h : Reachable s) :
    ∀ x y : ℤ, 0 ≤ x → x < BOARD_COLS → 0 ≤ y → y < BOARD_ROWS →
      isBorder x y = true → isWall s.walls x y = true := by
  intro x y hx0 hxlt hy0 hylt hb
  have hbf := reachable_borderFilled s h
  have hx : x = ((x.toNat : ℕ) : ℤ) := (Int.toNat_of_nonneg hx0).symm
  have hy : y = ((y.toNat : ℕ) : ℤ) := (Int.toNat_of_nonneg hy0).symm
  rw [hx, hy] at hb ⊢
  exact hbf x.toNat (by omega) y.toNat (by omega) hb

/-- Witness for C2 at the freshly initialised level-0 state, corner cell. -/
theorem claim2_witness :
    isWall (createInitialGameState 0).walls 0 0 = true :=
  claim2_border_ring (createInitialGameState 0) (Reachable.init 0) 0 0
    (by decide) (by decide) (by decide) (by decide) (by decide)

theorem getSnake_points_length (s : GameState) (k : Nat)
    (h : 1 ≤ s.snake.points.length) :
    (getSnake s k).points.length = s.snake.points.length := by
  simp only [getSnake]
  split_ifs
  · simp
  all_goals
    simp only [List.length_cons, List.length_take]
    omega

theorem levelDataFor_beyond (n : Nat) : levelDataFor (n + 5) = ⟨10, 95⟩ := by
  unfold levelDataFor
  have : levels.get? (n + 5) = none := by
    rw [List.get?_eq_none]
    simp [levels]
  rw [this]
  rfl

theorem levelDataFor_snakeLength_pos (level : Nat) :
    1 ≤ (levelDataFor level).snakeLength := by
  by_cases h : level < 5
  · interval_cases level <;> decide
  · obtain ⟨n, rfl⟩ : ∃ n, level = n + 5 := ⟨level - 5, by omega⟩
    rw [levelDataFor_beyond]
    decide

theorem applyTick_level (s : GameState) (k : Nat) : (applyTick s k).level = s.level := by
  simp only [applyTick]
  split_ifs <;> rfl

theorem applyDirection_level (s : GameState) (d : Direction) :
    (applyDirection s d).level = s.level := by
  unfold applyDirection
  split_ifs <;> rfl

theorem applyDirection_snake (s : GameState) (d : Direction) :
    (applyDirection s d).snake = s.snake := by
  unfold applyDirection
  split_ifs <;> rfl

theorem initSnake_length (level : Nat) :
    (createInitialGameState level).snake.points.length
      = (levelDataFor level).snakeLength := by
  simp [createInitialGameState]

/-- C6: in every reachable state the hunter's body has exactly the length
configured by the state's level descriptor: the initial body is built with
that length, the normal move prepends one head and drops the tail, and the
stuck-recovery reversal merely permutes the points, so no action changes
the length within a level. -/
theorem claim6_snake_length (s : GameState) (h : Reachable s) :
    s.snake.points.length = (levelDataFor s.level).snakeLength := by
  induction h with
  | init level => exact initSnake_length level
  | tick s k _ ih =>
      rw [applyTick_snake, applyTick_level]
      unfold tickSnake
      rw [getSnake_points_length s k (by rw [ih]; exact levelDataFor_snakeLength_pos _)]
      exact ih
  | dir s d _ ih => rw [applyDirection_snake, applyDirection_level]; exact ih
  | restart s _ _ => exact initSnake_length 0
  | next s _ _ => exact initSnake_length _

/-- Witness for C6 at the freshly initialised level-0 state. -/
theorem claim6_witness :
    (createInitialGameState 0).snake.points.length
      = (levelDataFor 0).snakeLength :=
  claim6_snake_length (createInitialGameState 0) (Reachable.init 0)

theorem tickPressedDirections_ne_nil (s : GameState)
    (h : s.pressedDirections ≠ []) : tickPressedDirections s ≠ [] := by
  unfold tickPressedDirections consumePressedDirection
  split_ifs with hodd hlen
  · intro hnil
    have := congrArg List.length hnil
    simp at this
    omega
  · exact h
  · exact h

theorem applyDirection_pressedDirections_ne_nil (s : GameState) (d : Direction)
    (h : s.pressedDirections ≠ []) : (applyDirection s d).pressedDirections ≠ [] := by
  unfold applyDirection
  split_ifs
  · exact h
  · simp

/-- C10: in every reachable state the pending-direction queue is non-empty:
it starts with one entry, consumption on odd ticks retains the sole entry
when only one remains, and enqueueing only appends, so the runner always
has a defined current heading. -/
theorem claim10_queue_nonempty (s : GameState) (h : Reachable s) :
    s.pressedDirections ≠ [] := by
  induction h with
  | init level => simp [createInitialGameState]
  | tick s k _ ih =>
      rw [applyTick_pressedDirections]
      exact tickPressedDirections_ne_nil s ih
  | dir s d _ ih => exact applyDirection_pressedDirections_ne_nil s d ih
  | restart s _ _ => simp [applyRestart, createInitialGameState]
  | next s _ _ => simp [applyNextLevel, createInitialGameState]

/-- Witness for C10 at the freshly initialised level-0 state. -/
theorem claim10_witness :
    (createInitialGameState 0).pressedDirections ≠ [] :=
  claim10_queue_nonempty (createInitialGameState 0) (Reachable.init 0)

/-- The first (depth) recursive call of `saGo` on a cons candidate list. -/
def saGoR1 (v : Visited) (p : Point) :
    List Point ×
      { v' : Visited //
        (markVisited v p).marked ⊆ v'.marked ∧ v'.walls = (markVisited v p).walls } :=
  saGo (markVisited v p).marked (markVisited v p) (pcandsOf (markVisited v p) p.x p.y)
    (pcandsOf_ok (markVisited v p) p.x p.y) (Finset.Subset.refl _)

/-- The second (breadth) recursive call of `saGo` on a cons candidate list. -/
def saGoR2 (M0 : Finset Point) (v : Visited) (p : Point) (rest : List Point)
    (hc : ∀ q ∈ p :: rest, q ∈ boundsUniv ∧ q ∉ M0) (hm : M0 ⊆ v.marked) :
    List Point ×
      { v' : Visited //
        (saGoR1 v p).2.1.marked ⊆ v'.marked ∧ v'.walls = (saGoR1 v p).2.1.walls } :=
  saGo M0 (saGoR1 v p).2.1 rest (consTail_ok hc) (markGrow_ok hm (saGoR1 v p).2.2.1)

theorem saGo_nil_fst (M0 : Finset Point) (v : Visited)
    (hc : ∀ p ∈ ([] : List Point), p ∈ boundsUniv ∧ p ∉ M0) (hm : M0 ⊆ v.marked) :
    (saGo M0 v [] hc hm).1 = [] := by
  rw [saGo]

theorem saGo_nil_snd (M0 : Finset Point) (v : Visited)
    (hc : ∀ p ∈ ([] : List Point), p ∈ boundsUniv ∧ p ∉ M0) (hm : M0 ⊆ v.marked) :
    (saGo M0 v [] hc hm).2.1 = v := by
  rw [saGo]

theorem saGo_cons_fst (M0 : Finset Point) (v : Visited) (p : Point) (rest : List Point)
    (hc : ∀ q ∈ p :: rest, q ∈ boundsUniv ∧ q ∉ M0) (hm : M0 ⊆ v.marked) :
    (saGo M0 v (p :: rest) hc hm).1
      = p :: ((saGoR1 v p).1 ++ (saGoR2 M0 v p rest hc hm).1) := by
  rw [saGo]
  rfl

theorem saGo_cons_snd (M0 : Finset Point) (v : Visited) (p : Point) (rest : List Point)
    (hc : ∀ q ∈ p :: rest, q ∈ boundsUniv ∧ q ∉ M0) (hm : M0 ⊆ v.marked) :
    (saGo M0 v (p :: rest) hc hm).2.1 = (saGoR2 M0 v p rest hc hm).2.1 := by
  rw [saGo]
  rfl

theorem saGo_cands_marked (M0 : Finset Point) (v : Visited) (cands : List Point)
    (hc : ∀ q ∈ cands, q ∈ boundsUniv ∧ q ∉ M0) (hm : M0 ⊆ v.marked) :
    ∀ q ∈ cands, q ∈ (saGo M0 v cands hc hm).2.1.marked := by
  cases cands with
  | nil => intro q hq; simp at hq
  | cons p rest =>
      intro q hq
      rw [saGo_cons_snd]
      rcases List.mem_cons.1 hq with rfl | hq'
      · have h1 : q ∈ (markVisited v q).marked := Finset.mem_insert_self _ _
        have h2 : q ∈ (saGoR1 v q).2.1.marked := (saGoR1 v q).2.2.1 h1
        exact (saGoR2 M0 v q rest hc hm).2.2.1 h2
      · exact saGo_cands_marked M0 (saGoR1 v p).2.1 rest (consTail_ok hc)
          (markGrow_ok hm (saGoR1 v p).2.2.1) q hq'
termination_by ((boundsUniv \ M0).card, cands.length)
decreasing_by
  apply Prod.Lex.right
  simp_all

theorem saGo_marked_iff (M0 : Finset Point) (v : Visited) (cands : List Point)
    (hc : ∀ q ∈ cands, q ∈ boundsUniv ∧ q ∉ M0) (hm : M0 ⊆ v.marked) :
    ∀ q : Point, q ∈ (saGo M0 v cands hc hm).2.1.marked
      ↔ q ∈ v.marked ∨ q ∈ (saGo M0 v cands hc hm).1 := by
  cases cands with
  | nil =>
      intro q
      rw [saGo_nil_snd, saGo_nil_fst]
      simp
  | cons p rest =>
      intro q
      rw [saGo_cons_snd, saGo_cons_fst]
      have ih1 := saGo_marked_iff (markVisited v p).marked (markVisited v p)
        (pcandsOf (markVisited v p) p.x p.y) (pcandsOf_ok _ _ _)
        (Finset.Subset.refl _) q
      have ih2 := saGo_marked_iff M0 (saGoR1 v p).2.1 rest (consTail_ok hc)
        (markGrow_ok hm (saGoR1 v p).2.2.1) q
      rw [show (saGoR2 M0 v p rest hc hm).2.1
            = (saGo M0 (saGoR1 v p).2.1 rest (consTail_ok hc)
                (markGrow_ok hm (saGoR1 v p).2.2.1)).2.1 from rfl,
          ih2]
      rw [show (saGo (markVisited v p).marked (markVisited v p)
              (pcandsOf (markVisited v p) p.x p.y) (pcandsOf_ok _ _ _)
              (Finset.Subset.refl _))
            = saGoR1 v p from rfl] at ih1
      rw [ih1]
      simp only [markVisited, Finset.mem_insert, List.mem_cons, List.mem_append]
      rw [show (saGoR2 M0 v p rest hc hm).1
            = (saGo M0 (saGoR1 v p).2.1 rest (consTail_ok hc)
                (markGrow_ok hm (saGoR1 v p).2.2.1)).1 from rfl]
      tauto
termination_by ((boundsUniv \ M0).card, cands.length)
decreasing_by
  · exact Prod.Lex.left _ _ (saGo_dec1 M0 v p (hc p (List.mem_cons_self p rest)) hm)
  · apply Prod.Lex.right
    simp only [*, List.length_cons]
    omega

theorem borderFilled_int (W : List (List Bool)) (h : borderFilled W) (x y : ℤ)
    (hx0 : 0 ≤ x) (hxlt : x < BOARD_COLS) (hy0 : 0 ≤ y) (hylt : y < BOARD_ROWS)
    (hb : isBorder x y = true) : isWall W x y = true := by
  have h40 : BOARD_COLS = 40 := rfl
  have h20 : BOARD_ROWS = 20 := rfl
  have hx : x = ((x.toNat : ℕ) : ℤ) := (Int.toNat_of_nonneg hx0).symm
  have hy : y = ((y.toNat : ℕ) : ℤ) := (Int.toNat_of_nonneg hy0).symm
  rw [hx, hy] at hb ⊢
  exact h x.toNat (by omega) y.toNat (by omega) hb

/-- A cell strictly inside the border ring that is open. -/
def interiorOpen (W : List (List Bool)) (p : Point) : Prop :=
  1 ≤ p.x ∧ p.x ≤ BOARD_COLS - 2 ∧ 1 ≤ p.y ∧ p.y ≤ BOARD_ROWS - 2
    ∧ isWall W p.x p.y = false

theorem isBorder_false_iff (x y : ℤ) :
    isBorder x y = false
      ↔ x ≠ 0 ∧ y ≠ 0 ∧ x ≠ BOARD_COLS - 1 ∧ y ≠ BOARD_ROWS - 1 := by
  simp only [isBorder, Bool.or_eq_false_iff, beq_eq_false_iff_ne, ne_eq]
  tauto

theorem interiorOpen_of_open (W : List (List Bool)) (hbf : borderFilled W) (p : Point)
    (hx0 : 0 ≤ p.x) (hxlt : p.x < BOARD_COLS) (hy0 : 0 ≤ p.y) (hylt : p.y < BOARD_ROWS)
    (hopen : isWall W p.x p.y = false) : interiorOpen W p := by
  have h40 : BOARD_COLS = 40 := rfl
  have h20 : BOARD_ROWS = 20 := rfl
  have hnb : isBorder p.x p.y = false := by
    cases hbb : isBorder p.x p.y
    · rfl
    · rw [borderFilled_int W hbf p.x p.y hx0 hxlt hy0 hylt hbb] at hopen
      exact absurd hopen (by simp)
  rw [isBorder_false_iff] at hnb
  exact ⟨by omega, by omega, by omega, by omega, hopen⟩

theorem interiorOpen_nbr (W : List (List Bool)) (hbf : borderFilled W) {p q : Point}
    (hp : interiorOpen W p) (hq : q ∈ nbrs p.x p.y)
    (hopen : isWall W q.x q.y = false) : interiorOpen W q := by
  have h40 : BOARD_COLS = 40 := rfl
  have h20 : BOARD_ROWS = 20 := rfl
  obtain ⟨hp1, hp2, hp3, hp4, _⟩ := hp
  have hq' : (q.x = p.x - 1 ∧ q.y = p.y) ∨ (q.x = p.x + 1 ∧ q.y = p.y)
      ∨ (q.x = p.x ∧ q.y = p.y + 1) ∨ (q.x = p.x ∧ q.y = p.y - 1) := by
    simp only [nbrs, List.mem_cons, List.mem_singleton, List.not_mem_nil, or_false] at hq
    rcases hq with rfl | rfl | rfl | rfl <;> simp
  rcases hq' with ⟨hqx, hqy⟩ | ⟨hqx, hqy⟩ | ⟨hqx, hqy⟩ | ⟨hqx, hqy⟩ <;>
    exact interiorOpen_of_open W hbf q (by omega) (by omega) (by omega) (by omega) hopen

theorem inBounds_of_interiorOpen {W : List (List Bool)} {p : Point}
    (h : interiorOpen W p) : inBounds p = true := by
  have h40 : BOARD_COLS = 40 := rfl
  have h20 : BOARD_ROWS = 20 := rfl
  obtain ⟨h1, h2, h3, h4, _⟩ := h
  simp only [inBounds, Bool.and_eq_true, Bool.not_eq_true', Bool.or_eq_false_iff,
    decide_eq_false_iff_not, not_lt]
  omega

theorem saGo_area_interior (W : List (List Bool)) (hbf : borderFilled W)
    (M0 : Finset Point) (v : Visited) (cands : List Point)
    (hc : ∀ q ∈ cands, q ∈ boundsUniv ∧ q ∉ M0) (hm : M0 ⊆ v.marked)
    (hw : v.walls = W)
    (hcands : ∀ q ∈ cands, interiorOpen W q) :
    ∀ q ∈ (saGo M0 v cands hc hm).1, interiorOpen W q := by
  cases cands with
  | nil => rw [saGo_nil_fst]; intro q hq; simp at hq
  | cons p rest =>
      rw [saGo_cons_fst]
      intro q hq
      rcases List.mem_cons.1 hq with rfl | hq2
      · exact hcands q (List.mem_cons_self _ _)
      rcases List.mem_append.1 hq2 with hq3 | hq3
      · have hpc : ∀ r ∈ pcandsOf (markVisited v p) p.x p.y, interiorOpen W r := by
          intro r hr
          have hr' := List.of_mem_filter hr
          simp only [Bool.and_eq_true, Bool.not_eq_true'] at hr'
          have hropen : isWall W r.x r.y = false := by
            have hv := hr'.2
            simp only [isVisited, Bool.or_eq_false_iff, decide_eq_false_iff_not] at hv
            have hv1 : isWall v.walls r.x r.y = false := hv.1
            rw [hw] at hv1
            exact hv1
          exact interiorOpen_nbr W hbf (hcands p (List.mem_cons_self _ _))
            (List.mem_of_mem_filter hr) hropen
        exact saGo_area_interior W hbf (markVisited v p).marked (markVisited v p)
          (pcandsOf (markVisited v p) p.x p.y) (pcandsOf_ok _ _ _)
          (Finset.Subset.refl _) hw hpc q hq3
      · exact saGo_area_interior W hbf M0 (saGoR1 v p).2.1 rest (consTail_ok hc)
          (markGrow_ok hm (saGoR1 v p).2.2.1) ((saGoR1 v p).2.2.2.trans hw)
          (fun r hr => hcands r (List.mem_cons_of_mem _ hr)) q hq3
termination_by ((boundsUniv \ M0).card, cands.length)
decreasing_by
  · exact Prod.Lex.left _ _ (saGo_dec1 M0 v p (hc p (List.mem_cons_self p rest)) hm)
  · apply Prod.Lex.right
    simp only [*, List.length_cons]
    omega

theorem saGo_saturated (W : List (List Bool)) (M0 : Finset Point) (v : Visited)
    (cands : List Point)
    (hc : ∀ q ∈ cands, q ∈ boundsUniv ∧ q ∉ M0) (hm : M0 ⊆ v.marked)
    (hw : v.walls = W) :
    ∀ q ∈ (saGo M0 v cands hc hm).1, ∀ n, n ∈ nbrs q.x q.y →
      inBounds n = true → isWall W n.x n.y = false →
      n ∈ (saGo M0 v cands hc hm).2.1.marked := by
  cases cands with
  | nil => rw [saGo_nil_fst]; intro q hq; simp at hq
  | cons p rest =>
      rw [saGo_cons_fst, saGo_cons_snd]
      intro q hq n hn hnb hnopen
      rcases List.mem_cons.1 hq with rfl | hq2
      · by_cases hv : isVisited (markVisited v q) n = true
        · have hnm : n ∈ (markVisited v q).marked := by
            simp only [isVisited, Bool.or_eq_true, decide_eq_true_eq] at hv
            rcases hv with hwall | hmem
            · have hwall' : isWall v.walls n.x n.y = true := hwall
              rw [hw] at hwall'
              rw [hwall'] at hnopen
              exact absurd hnopen (by simp)
            · exact hmem
          exact (saGoR2 M0 v q rest hc hm).2.2.1 ((saGoR1 v q).2.2.1 hnm)
        · have hnf : isVisited (markVisited v q) n = false :=
            Bool.eq_false_iff.2 hv
          have hin : n ∈ pcandsOf (markVisited v q) q.x q.y := by
            rw [pcandsOf, List.mem_filter]
            refine ⟨hn, ?_⟩
            rw [hnb, hnf]
            rfl
          have hmarked := saGo_cands_marked (markVisited v q).marked (markVisited v q)
            (pcandsOf (markVisited v q) q.x q.y) (pcandsOf_ok _ _ _)
            (Finset.Subset.refl _) n hin
          exact (saGoR2 M0 v q rest hc hm).2.2.1 hmarked
      rcases List.mem_append.1 hq2 with hq3 | hq3
      · have hrec := saGo_saturated W (markVisited v p).marked (markVisited v p)
          (pcandsOf (markVisited v p) p.x p.y) (pcandsOf_ok _ _ _)
          (Finset.Subset.refl _) hw q hq3 n hn hnb hnopen
        exact (saGoR2 M0 v p rest hc hm).2.2.1 hrec
      · exact saGo_saturated W M0 (saGoR1 v p).2.1 rest (consTail_ok hc)
          (markGrow_ok hm (saGoR1 v p).2.2.1) ((saGoR1 v p).2.2.2.trans hw)
          q hq3 n hn hnb hnopen
termination_by ((boundsUniv \ M0).card, cands.length)
decreasing_by
  · exact Prod.Lex.left _ _ (saGo_dec1 M0 v p (hc p (List.mem_cons_self p rest)) hm)
  · apply Prod.Lex.right
    simp only [*, List.length_cons]
    omega

/-- Connectivity within a set of points: a chain of neighbour steps whose
nodes after the start all lie in `S`. -/
inductive ConnIn (S : Finset Point) : Point → Point → Prop
  | base (p : Point) : ConnIn S p p
  | step {p q r : Point} : ConnIn S p q → r ∈ nbrs q.x q.y → r ∈ S → ConnIn S p r

theorem ConnIn.mono {S T : Finset Point} (hST : S ⊆ T) {p q : Point}
    (h : ConnIn S p q) : ConnIn T p q := by
  induction h with
  | base => exact ConnIn.base _
  | step _ hn hmem ih => exact ConnIn.step ih hn (hST hmem)

theorem ConnIn.comp {S : Finset Point} {p q r : Point}
    (h1 : ConnIn S p q) (h2 : ConnIn S q r) : ConnIn S p r := by
  induction h2 with
  | base => exact h1
  | step _ hn hmem ih => exact ConnIn.step ih hn hmem

theorem saGo_connected (M0 : Finset Point) (v : Visited) (cands : List Point)
    (hc : ∀ q ∈ cands, q ∈ boundsUniv ∧ q ∉ M0) (hm : M0 ⊆ v.marked) :
    ∀ q ∈ (saGo M0 v cands hc hm).1,
      ∃ c ∈ cands, ConnIn (saGo M0 v cands hc hm).2.1.marked c q := by
  cases cands with
  | nil => rw [saGo_nil_fst]; intro q hq; simp at hq
  | cons p rest =>
      rw [saGo_cons_fst, saGo_cons_snd]
      intro q hq
      rcases List.mem_cons.1 hq with rfl | hq2
      · exact ⟨q, List.mem_cons_self _ _, ConnIn.base q⟩
      rcases List.mem_append.1 hq2 with hq3 | hq3
      · obtain ⟨c1, hc1, hconn⟩ := saGo_connected (markVisited v p).marked
          (markVisited v p) (pcandsOf (markVisited v p) p.x p.y)
          (pcandsOf_ok _ _ _) (Finset.Subset.refl _) q hq3
        have hmono : (saGoR1 v p).2.1.marked ⊆ (saGoR2 M0 v p rest hc hm).2.1.marked :=
          (saGoR2 M0 v p rest hc hm).2.2.1
        have hc1m : c1 ∈ (saGoR2 M0 v p rest hc hm).2.1.marked :=
          hmono (saGo_cands_marked (markVisited v p).marked (markVisited v p)
            (pcandsOf (markVisited v p) p.x p.y) (pcandsOf_ok _ _ _)
            (Finset.Subset.refl _) c1 hc1)
        have hstep : ConnIn (saGoR2 M0 v p rest hc hm).2.1.marked p c1 :=
          ConnIn.step (ConnIn.base p) (List.mem_of_mem_filter hc1) hc1m
        exact ⟨p, List.mem_cons_self _ _, hstep.comp (hconn.mono hmono)⟩
      · obtain ⟨c, hcr, hconn⟩ := saGo_connected M0 (saGoR1 v p).2.1 rest
          (consTail_ok hc) (markGrow_ok hm (saGoR1 v p).2.2.1) q hq3
        exact ⟨c, List.mem_cons_of_mem _ hcr, hconn⟩
termination_by ((boundsUniv \ M0).card, cands.length)
decreasing_by
  · exact Prod.Lex.left _ _ (saGo_dec1 M0 v p (hc p (List.mem_cons_self p rest)) hm)
  · apply Prod.Lex.right
    simp only [*, List.length_cons]
    omega

theorem isWall_fillNonSnakeArea_at (W : List (List Bool)) (A : List Point)
    (hsh : wallsShape W) (i j : Nat)
    (hi : i < BOARD_COLS.toNat) (hj : j < BOARD_ROWS.toNat) :
    isWall (fillNonSnakeArea W A) (i : ℤ) (j : ℤ)
      = if A.any (fun dot => hasCoordinates dot (i : ℤ) (j : ℤ))
        then isWall W (i : ℤ) (j : ℤ) else true := by
  have hjlt : j < W.length := by rw [hsh.1]; exact hj
  obtain ⟨row, hrow⟩ : ∃ row, W.get? j = some row := ⟨_, List.get?_eq_get hjlt⟩
  have hrmem : row ∈ W := List.get?_mem hrow
  have hilt : i < row.length := by rw [hsh.2 row hrmem]; exact hi
  obtain ⟨fill, hfill⟩ : ∃ b, row.get? i = some b := ⟨_, List.get?_eq_get hilt⟩
  rw [isWall_eq_get, isWall_eq_get, hrow]
  rw [fillNonSnakeArea, jsMapIdx_get?, hrow]
  simp only [Option.map_some', Option.getD_some]
  rw [jsMapIdx_get?, hfill]
  simp only [Option.map_some', Option.getD_some]

theorem isWall_fillNonSnakeArea_point (W : List (List Bool)) (A : List Point)
    (hsh : wallsShape W) (p : Point)
    (hx0 : 0 ≤ p.x) (hxlt : p.x < BOARD_COLS) (hy0 : 0 ≤ p.y) (hylt : p.y < BOARD_ROWS) :
    isWall (fillNonSnakeArea W A) p.x p.y
      = if A.any (fun dot => hasCoordinates dot p.x p.y)
        then isWall W p.x p.y else true := by
  have h40 : BOARD_COLS = 40 := rfl
  have h20 : BOARD_ROWS = 20 := rfl
  have hx : p.x = ((p.x.toNat : ℕ) : ℤ) := (Int.toNat_of_nonneg hx0).symm
  have hy : p.y = ((p.y.toNat : ℕ) : ℤ) := (Int.toNat_of_nonneg hy0).symm
  rw [hx, hy]
  exact isWall_fillNonSnakeArea_at W A hsh p.x.toNat p.y.toNat (by omega) (by omega)

theorem any_hasCoordinates_iff (A : List Point) (p : Point) :
    (A.any (fun dot => hasCoordinates dot p.x p.y) = true) ↔ p ∈ A := by
  simp only [List.any_eq_true, hasCoordinates, Bool.and_eq_true, beq_iff_eq]
  constructor
  · rintro ⟨dot, hdot, hx, hy⟩
    have hdp : dot = p := Point.ext_xy hx hy
    rwa [hdp] at hdot
  · intro hp
    exact ⟨p, hp, rfl, rfl⟩

theorem jsMapIdx_id_of (l : List α) (f : Nat → α → α)
    (h : ∀ n a, l.get? n = some a → f n a = a) : jsMapIdx f l = l := by
  apply List.ext_get?
  intro n
  rw [jsMapIdx_get?]
  cases hn : l.get? n with
  | none => rfl
  | some a => simp [h n a hn]

set_option maxHeartbeats 1000000 in
/-- C7: the flood-fill sealing is idempotent — on any grid of board shape
whose border ring is filled, with the hunter's head on an open in-range
cell, applying `fillHoles` to its own output with the same head yields the
same grid. -/
theorem claim7_fillHoles_idempotent (W : List (List Bool)) (head : Point)
    (hsh : wallsShape W) (hbf : borderFilled W)
    (hx0 : 0 ≤ head.x) (hxlt : head.x < BOARD_COLS)
    (hy0 : 0 ≤ head.y) (hylt : head.y < BOARD_ROWS)
    (hopen : isWall W head.x head.y = false) :
    fillHoles (fillHoles W head) head = fillHoles W head := by
  have h40 : BOARD_COLS = 40 := rfl
  have h20 : BOARD_ROWS = 20 := rfl
  have hheadInt : interiorOpen W head :=
    interiorOpen_of_open W hbf head hx0 hxlt hy0 hylt hopen
  -- run 1 over W
  have hcands0 : ∀ q ∈ pcandsOf ⟨W, ∅⟩ head.x head.y, interiorOpen W q := by
    intro q hq
    have hq' := List.of_mem_filter hq
    simp only [Bool.and_eq_true, Bool.not_eq_true'] at hq'
    have hqopen : isWall W q.x q.y = false := by
      have hv := hq'.2
      simp only [isVisited, Bool.or_eq_false_iff, decide_eq_false_iff_not] at hv
      exact hv.1
    exact interiorOpen_nbr W hbf hheadInt (List.mem_of_mem_filter hq) hqopen
  have hA_interior : ∀ q ∈ (getSnakeArea ⟨W, ∅⟩ head.x head.y).1, interiorOpen W q :=
    saGo_area_interior W hbf (Visited.mk W ∅).marked ⟨W, ∅⟩
      (pcandsOf ⟨W, ∅⟩ head.x head.y) (pcandsOf_ok _ _ _) (Finset.Subset.refl _)
      rfl hcands0
  have hA_marked : ∀ q : Point,
      q ∈ (getSnakeArea ⟨W, ∅⟩ head.x head.y).2.1.marked
        ↔ q ∈ (getSnakeArea ⟨W, ∅⟩ head.x head.y).1 := by
    intro q
    have := saGo_marked_iff (Visited.mk W ∅).marked ⟨W, ∅⟩
      (pcandsOf ⟨W, ∅⟩ head.x head.y) (pcandsOf_ok _ _ _) (Finset.Subset.refl _) q
    simpa using this
  have hA_sat : ∀ q ∈ (getSnakeArea ⟨W, ∅⟩ head.x head.y).1, ∀ n, n ∈ nbrs q.x q.y →
      inBounds n = true → isWall W n.x n.y = false →
      n ∈ (getSnakeArea ⟨W, ∅⟩ head.x head.y).2.1.marked :=
    saGo_saturated W (Visited.mk W ∅).marked ⟨W, ∅⟩
      (pcandsOf ⟨W, ∅⟩ head.x head.y) (pcandsOf_ok _ _ _) (Finset.Subset.refl _) rfl
  have hA_conn : ∀ q ∈ (getSnakeArea ⟨W, ∅⟩ head.x head.y).1,
      ∃ c ∈ pcandsOf ⟨W, ∅⟩ head.x head.y,
        ConnIn (getSnakeArea ⟨W, ∅⟩ head.x head.y).2.1.marked c q :=
    saGo_connected (Visited.mk W ∅).marked ⟨W, ∅⟩
      (pcandsOf ⟨W, ∅⟩ head.x head.y) (pcandsOf_ok _ _ _) (Finset.Subset.refl _)
  have hcands0_marked : ∀ c ∈ pcandsOf ⟨W, ∅⟩ head.x head.y,
      c ∈ (getSnakeArea ⟨W, ∅⟩ head.x head.y).2.1.marked :=
    saGo_cands_marked (Visited.mk W ∅).marked ⟨W, ∅⟩
      (pcandsOf ⟨W, ∅⟩ head.x head.y) (pcandsOf_ok _ _ _) (Finset.Subset.refl _)
  -- the sealed grid
  have hw'_eq : fillHoles W head
      = fillNonSnakeArea W (getSnakeArea ⟨W, ∅⟩ head.x head.y).1 := rfl
  have hw'_shape : wallsShape (fillHoles W head) := by
    rw [hw'_eq]
    exact fillNonSnakeArea_shape _ _ hsh
  have hopen_w' : ∀ p : Point, p ∈ (getSnakeArea ⟨W, ∅⟩ head.x head.y).1 →
      isWall (fillHoles W head) p.x p.y = false := by
    intro p hp
    obtain ⟨h1, h2, h3, h4, hpo⟩ := hA_interior p hp
    rw [hw'_eq, isWall_fillNonSnakeArea_point W _ hsh p (by omega) (by omega) (by omega)
      (by omega)]
    rw [if_pos ((any_hasCoordinates_iff _ p).2 hp)]
    exact hpo
  have hclosed_w' : ∀ p : Point, 0 ≤ p.x → p.x < BOARD_COLS → 0 ≤ p.y → p.y < BOARD_ROWS →
      isWall (fillHoles W head) p.x p.y = false →
      p ∈ (getSnakeArea ⟨W, ∅⟩ head.x head.y).1 := by
    intro p ha hb hcc hdd hp
    rw [hw'_eq, isWall_fillNonSnakeArea_point W _ hsh p ha hb hcc hdd] at hp
    by_cases hany : (getSnakeArea ⟨W, ∅⟩ head.x head.y).1.any
        (fun dot => hasCoordinates dot p.x p.y) = true
    · exact (any_hasCoordinates_iff _ p).1 hany
    · rw [if_neg (by simpa using hany)] at hp
      exact absurd hp (by simp)
  -- run 2 over the sealed grid
  have hc0' : ∀ c ∈ pcandsOf ⟨W, ∅⟩ head.x head.y,
      c ∈ pcandsOf ⟨fillHoles W head, ∅⟩ head.x head.y := by
    intro c hcm
    have hcA : c ∈ (getSnakeArea ⟨W, ∅⟩ head.x head.y).1 :=
      (hA_marked c).1 (hcands0_marked c hcm)
    have hcopen : isWall (fillHoles W head) c.x c.y = false := hopen_w' c hcA
    have hcn := List.mem_of_mem_filter hcm
    have hcb := List.of_mem_filter hcm
    simp only [Bool.and_eq_true, Bool.not_eq_true'] at hcb
    rw [pcandsOf, List.mem_filter]
    refine ⟨hcn, ?_⟩
    have hcv : isVisited ⟨fillHoles W head, ∅⟩ c = false := by
      simp [isVisited, hcopen]
    rw [hcb.1, hcv]
    rfl
  have hA'_marked : ∀ q : Point,
      q ∈ (getSnakeArea ⟨fillHoles W head, ∅⟩ head.x head.y).2.1.marked
        ↔ q ∈ (getSnakeArea ⟨fillHoles W head, ∅⟩ head.x head.y).1 := by
    intro q
    have := saGo_marked_iff (Visited.mk (fillHoles W head) ∅).marked
      ⟨fillHoles W head, ∅⟩ (pcandsOf ⟨fillHoles W head, ∅⟩ head.x head.y)
      (pcandsOf_ok _ _ _) (Finset.Subset.refl _) q
    simpa using this
  have hA'_sat : ∀ q ∈ (getSnakeArea ⟨fillHoles W head, ∅⟩ head.x head.y).1,
      ∀ n, n ∈ nbrs q.x q.y → inBounds n = true →
      isWall (fillHoles W head) n.x n.y = false →
      n ∈ (getSnakeArea ⟨fillHoles W head, ∅⟩ head.x head.y).2.1.marked :=
    saGo_saturated (fillHoles W head) (Visited.mk (fillHoles W head) ∅).marked
      ⟨fillHoles W head, ∅⟩ (pcandsOf ⟨fillHoles W head, ∅⟩ head.x head.y)
      (pcandsOf_ok _ _ _) (Finset.Subset.refl _) rfl
  have hcands0'_marked : ∀ c ∈ pcandsOf ⟨fillHoles W head, ∅⟩ head.x head.y,
      c ∈ (getSnakeArea ⟨fillHoles W head, ∅⟩ head.x head.y).2.1.marked :=
    saGo_cands_marked (Visited.mk (fillHoles W head) ∅).marked
      ⟨fillHoles W head, ∅⟩ (pcandsOf ⟨fillHoles W head, ∅⟩ head.x head.y)
      (pcandsOf_ok _ _ _) (Finset.Subset.refl _)
  -- every cell of the first area is rediscovered by the second flood
  have htrans : ∀ c q : Point, c ∈ pcandsOf ⟨W, ∅⟩ head.x head.y →
      ConnIn (getSnakeArea ⟨W, ∅⟩ head.x head.y).2.1.marked c q →
      q ∈ (getSnakeArea ⟨fillHoles W head, ∅⟩ head.x head.y).2.1.marked := by
    intro c q hcm hconn
    induction hconn with
    | base => exact hcands0'_marked c (hc0' c hcm)
    | step hsub hn hmem ih =>
        rename_i q0 r
        have hq0A' : q0 ∈ (getSnakeArea ⟨fillHoles W head, ∅⟩ head.x head.y).1 :=
          (hA'_marked q0).1 ih
        have hrA : r ∈ (getSnakeArea ⟨W, ∅⟩ head.x head.y).1 := (hA_marked r).1 hmem
        have hrInt := hA_interior r hrA
        exact hA'_sat q0 hq0A' r hn (inBounds_of_interiorOpen hrInt) (hopen_w' r hrA)
  have hkey : ∀ p ∈ (getSnakeArea ⟨W, ∅⟩ head.x head.y).1,
      p ∈ (getSnakeArea ⟨fillHoles W head, ∅⟩ head.x head.y).1 := by
    intro p hp
    obtain ⟨c, hcm, hconn⟩ := hA_conn p hp
    exact (hA'_marked p).1 (htrans c p hcm hconn)
  -- the second sealing changes nothing
  show fillNonSnakeArea (fillHoles W head)
      (getSnakeArea ⟨fillHoles W head, ∅⟩ head.x head.y).1 = fillHoles W head
  rw [fillNonSnakeArea]
  apply jsMapIdx_id_of
  intro j row hrow
  apply jsMapIdx_id_of
  intro i fill hfill
  cases fill with
  | true => split_ifs <;> rfl
  | false =>
      have hj20 : j < (fillHoles W head).length := by
        by_cases hlt : j < (fillHoles W head).length
        · exact hlt
        · rw [List.get?_eq_none.2 (le_of_not_lt hlt)] at hrow
          cases hrow
      have hjB : j < BOARD_ROWS.toNat := by
        rw [hw'_shape.1] at hj20
        exact hj20
      have hrmem : row ∈ fillHoles W head := List.get?_mem hrow
      have hirow : i < row.length := by
        by_cases hlt : i < row.length
        · exact hlt
        · rw [List.get?_eq_none.2 (le_of_not_lt hlt)] at hfill
          cases hfill
      have hiB : i < BOARD_COLS.toNat := by
        rw [hw'_shape.2 row hrmem] at hirow
        exact hirow
      have hwall_false : isWall (fillHoles W head) ((i : ℕ) : ℤ) ((j : ℕ) : ℤ) = false := by
        rw [isWall_eq_get, hrow]
        simp only [Option.getD_some]
        rw [hfill]
        rfl
      have hpA : (⟨(i : ℤ), (j : ℤ)⟩ : Point) ∈ (getSnakeArea ⟨W, ∅⟩ head.x head.y).1 :=
        hclosed_w' ⟨(i : ℤ), (j : ℤ)⟩
          (by show (0 : ℤ) ≤ (i : ℤ); omega)
          (by show ((i : ℕ) : ℤ) < BOARD_COLS; omega)
          (by show (0 : ℤ) ≤ (j : ℤ); omega)
          (by show ((j : ℕ) : ℤ) < BOARD_ROWS; omega)
          hwall_false
      have hpA' := hkey _ hpA
      have hany : (getSnakeArea ⟨fillHoles W head, ∅⟩ head.x head.y).1.any
          (fun dot => hasCoordinates dot (i : ℤ) (j : ℤ)) = true :=
        (any_hasCoordinates_iff _ (⟨(i : ℤ), (j : ℤ)⟩ : Point)).2 hpA'
      rw [if_pos hany]

/-- A grid in which every cell but (5, 5) is filled. -/
def claim7WitnessGrid : List (List Bool) :=
  (List.range BOARD_ROWS.toNat).map
    (fun (row : Nat) => (List.range BOARD_COLS.toNat).map
      (fun (col : Nat) => !(col == 5 && row == 5)))

/-- Witness for C7 on a grid with a single open cell under the hunter head. -/
theorem claim7_witness :
    wallsShape claim7WitnessGrid
    ∧ borderFilled claim7WitnessGrid
    ∧ isWall claim7WitnessGrid 5 5 = false
    ∧ fillHoles (fillHoles claim7WitnessGrid ⟨5, 5⟩) ⟨5, 5⟩
        = fillHoles claim7WitnessGrid ⟨5, 5⟩ :=
  ⟨by decide, by decide, by decide,
   claim7_fillHoles_idempotent claim7WitnessGrid ⟨5, 5⟩ (by decide) (by decide)
     (by decide) (by decide) (by decide) (by decide) (by decide)⟩

end Mamba
